import Mathlib

/-
Verification of the witness-generation front end of the powdr executor
(src/executor/src/witgen/mod.rs): the WitnessGenerator configuration object,
FixedData construction and its setup-time checks, WitnessColumn construction,
external-witness lookup, and the final collection of solved columns into
source declaration order.

The solving stage itself (Generator.run, machine extraction, the machines'
take_witness_col_values) is outside the excerpt; where a property depends on
it, its output is modelled from the spec as an explicit list of
(column name, values) pairs together with the contract the spec states for it.
Machine integers (u64 degree, usize indices) are modelled as Nat; none of the
embedded code can overflow them. Rust panics and assertion failures are
modelled as Except.error values.
-/

set_option maxRecDepth 8000

namespace Witgen

/-- Discriminant of a polynomial: committed (witness), constant (fixed) or intermediate. -/
inductive PolynomialType where
  | Committed
  | Constant
  | Intermediate
deriving DecidableEq, Repr

/-- Identifier of a polynomial: numeric id together with its discriminant. -/
structure PolyID where
  id : Nat
  ptype : PolynomialType
deriving DecidableEq, Repr

/-- Reference to a polynomial from an expression. -/
structure PolynomialReference where
  poly_id : Option PolyID
  name : String
  next : Bool
  index : Option Nat
deriving DecidableEq, Repr

/-- Value definition attached to a polynomial declaration. The witness
generator only distinguishes the Query variant from all others; the
expression payload type E is opaque at this level. -/
inductive FunctionValueDefinition (E : Type) where
  | Mapping (e : E)
  | Array (es : List E)
  | Query (e : E)
  | Expression (e : E)
deriving DecidableEq, Repr

/-- Declaration symbol of a polynomial: absolute name, declared numeric id,
and the optional array length (present only for array-valued declarations). -/
structure Symbol where
  absolute_name : String
  id : Nat
  length : Option Nat
deriving DecidableEq, Repr

/-- The part of the analyzed input that the witness generator reads:
the committed polynomial declarations in source order, each with its
optional value definition. -/
structure Analyzed (E : Type) where
  committed_polys_in_source_order : List (Symbol × Option (FunctionValueDefinition E))
deriving DecidableEq, Repr

/-- Names of the committed columns in source declaration order. -/
def committedNames {E : Type} (a : Analyzed E) : List String :=
  a.committed_polys_in_source_order.map (fun p => p.1.absolute_name)

/-- Association-list lookup keyed by column name (first match). -/
def mapLookup {α : Type} : List (String × α) → String → Option α
  | [], _ => none
  | p :: rest, k => if p.1 = k then some p.2 else mapLookup rest k

/-- Association-list removal of every binding of a key (BTreeMap::remove on a
map whose keys are unique removes exactly that binding). -/
def mapRemove {α : Type} : List (String × α) → String → List (String × α)
  | [], _ => []
  | p :: rest, k => if p.1 = k then mapRemove rest k else p :: mapRemove rest k

/-- Insertion with replacement, as BTreeMap::insert behaves on the value level. -/
def btreeInsert {α : Type} : List (String × α) → String → α → List (String × α)
  | [], k, v => [(k, v)]
  | p :: rest, k, v => if p.1 = k then (k, v) :: rest else p :: btreeInsert rest k v

/-- BTreeMap::from_iter: repeated insertion, so for duplicate keys the last
pair wins. -/
def btreeFromIter {α : Type} (l : List (String × α)) : List (String × α) :=
  l.foldl (fun m p => btreeInsert m p.1 p.2) []

/-- Errors surfaced by the embedded code; each constructor corresponds to one
panic, assertion or unimplemented site of the Rust source. -/
inductive WitgenError where
  | zeroDegree
  | committedArray (name : String)
  | idMismatch (position : Nat) (declared : Nat)
  | externalLengthMismatch (name : String)
  | nonExistentColumns (names : List String)
  | missingColumn (name : String)
  | emptyColumn (name : String)
deriving DecidableEq, Repr

/-- Helper for Except results: true exactly on ok. -/
def exceptIsOk {e a : Type} : Except e a → Bool
  | Except.ok _ => true
  | Except.error _ => false

/-- A fixed (preprocessing) column: name and its immutable values. -/
structure FixedColumn (T : Type) where
  name : String
  values : List T
deriving DecidableEq, Repr

/-- Constructor FixedColumn::new. -/
def FixedColumn.new {T : Type} (name : String) (values : List T) : FixedColumn T :=
  { name := name, values := values }

/-- A query attached to a witness column: the query expression and the
polynomial reference built for the column. -/
structure Query (E : Type) where
  expr : E
  poly : PolynomialReference
deriving DecidableEq, Repr

/-- A witness column: name, optional query, optional externally supplied values. -/
structure WitnessColumn (T E : Type) where
  name : String
  query : Option (Query E)
  external_values : Option (List T)
deriving DecidableEq, Repr

instance {T E : Type} : Inhabited (WitnessColumn T E) :=
  ⟨{ name := "", query := none, external_values := none }⟩

/-- Constructor WitnessColumn::new: attaches a query exactly when the value
definition is a Query expression, building the polynomial reference for the
column itself (committed, id, name, no next, no index). -/
def WitnessColumn.new {T E : Type} (id : Nat) (name : String)
    (value : Option (FunctionValueDefinition E)) (external_values : Option (List T)) :
    WitnessColumn T E :=
  let q : Option E :=
    match value with
    | some (FunctionValueDefinition.Query e) => some e
    | _ => none
  let q : Option (Query E) :=
    q.map (fun callback =>
      { expr := callback,
        poly :=
          { poly_id := some { id := id, ptype := PolynomialType.Committed },
            name := name,
            next := false,
            index := none } })
  { name := name, query := q, external_values := external_values }

/-- Length check on an optional external value vector: true when present with
a length different from the degree (the assert_eq in FixedData::new). -/
def extLengthBad {T : Type} (degree : Nat) : Option (List T) → Bool
  | some v => !(v.length == degree)
  | none => false

/-- The per-declaration loop of FixedData::new: walks the committed
declarations with their position index, consuming matching external override
entries from the map, and fails on array declarations, id mismatches and
length-mismatched overrides. Returns the witness columns and the leftover
override map. -/
def mkWitnessColumns {T E : Type} (degree : Nat) :
    List (Symbol × Option (FunctionValueDefinition E)) → Nat → List (String × List T) →
    Except WitgenError (List (WitnessColumn T E) × List (String × List T))
  | [], _, ext => Except.ok ([], ext)
  | (poly, value) :: rest, i, ext =>
    if poly.length.isSome then
      Except.error (WitgenError.committedArray poly.absolute_name)
    else if poly.id ≠ i then
      Except.error (WitgenError.idMismatch i poly.id)
    else
      let external_values := mapLookup ext poly.absolute_name
      if extLengthBad degree external_values then
        Except.error (WitgenError.externalLengthMismatch poly.absolute_name)
      else
        match mkWitnessColumns degree rest (i + 1) (mapRemove ext poly.absolute_name) with
        | Except.error e => Except.error e
        | Except.ok (cols, leftover) =>
          Except.ok (WitnessColumn.new i poly.absolute_name value external_values :: cols, leftover)

/-- Data that is fixed for witness generation. -/
structure FixedData (T E : Type) where
  degree : Nat
  fixed_cols : List (FixedColumn T)
  witness_cols : List (WitnessColumn T E)
deriving DecidableEq, Repr

/-- Constructor FixedData::new: keys the override list by name (last pair per
name wins, as BTreeMap::from_iter), builds the witness columns while consuming
matched overrides, and fails if any override is left over, naming the
unmatched columns. -/
def FixedData.new {T E : Type} (analyzed : Analyzed E) (degree : Nat)
    (fixed_col_values : List (String × List T))
    (external_witness_values : List (String × List T)) :
    Except WitgenError (FixedData T E) :=
  let ext := btreeFromIter external_witness_values
  match mkWitnessColumns degree analyzed.committed_polys_in_source_order 0 ext with
  | Except.error e => Except.error e
  | Except.ok (witness_cols, leftover) =>
    if leftover.isEmpty then
      Except.ok
        { degree := degree,
          fixed_cols := fixed_col_values.map (fun p => FixedColumn.new p.1 p.2),
          witness_cols := witness_cols }
    else
      Except.error (WitgenError.nonExistentColumns (leftover.map Prod.fst))

/-- Lookup FixedData::external_witness: the row index is reduced modulo the
degree, and the stored external vector, when present, is indexed there. -/
def FixedData.external_witness {T E : Type} [Inhabited T] (fd : FixedData T E)
    (row : Nat) (column : PolyID) : Option T :=
  let row2 := row % fd.degree
  ((fd.witness_cols.getD column.id default).external_values).map (fun v => v.getD row2 default)

/-- Configuration of one witness-generation run. The query callback is an
opaque function from a query string to an optional field value. -/
structure WitnessGenerator (T E : Type) where
  analyzed : Analyzed E
  degree : Nat
  fixed_col_values : List (String × List T)
  query_callback : String → Option T
  external_witness_values : List (String × List T)

/-- Constructor WitnessGenerator::new: starts with no external overrides. -/
def WitnessGenerator.new {T E : Type} (analyzed : Analyzed E) (degree : Nat)
    (fixed_col_values : List (String × List T)) (query_callback : String → Option T) :
    WitnessGenerator T E :=
  { analyzed := analyzed,
    degree := degree,
    fixed_col_values := fixed_col_values,
    query_callback := query_callback,
    external_witness_values := [] }

/-- Builder WitnessGenerator::with_external_witness_values: functional struct
update replacing only the override list. -/
def WitnessGenerator.with_external_witness_values {T E : Type} (wg : WitnessGenerator T E)
    (external_witness_values : List (String × List T)) : WitnessGenerator T E :=
  { wg with external_witness_values := external_witness_values }

/-- The final loop of WitnessGenerator::generate: walks the committed
declarations in source order, removing each column from the name-keyed map of
solved columns; a missing entry is the unwrap panic, an empty column the
assert. -/
def collectColumns {T E : Type} (columns : List (String × List T)) :
    List (Symbol × Option (FunctionValueDefinition E)) →
    Except WitgenError (List (String × List T))
  | [] => Except.ok []
  | (p, _) :: rest =>
    match mapLookup columns p.absolute_name with
    | none => Except.error (WitgenError.missingColumn p.absolute_name)
    | some column =>
      if column.isEmpty then
        Except.error (WitgenError.emptyColumn p.absolute_name)
      else
        match collectColumns (mapRemove columns p.absolute_name) rest with
        | Except.error e => Except.error e
        | Except.ok out => Except.ok ((p.absolute_name, column) :: out)

/-- WitnessGenerator::generate. Modelled from the spec: the solving stage
(global-constraint analysis, machine extraction, Generator.run and each
machine yielding take_witness_col_values) is not part of the excerpt; its
combined output is passed as the solved parameter, the chained list of
(column name, values) pairs that the code collects into a BTreeMap. What is
embedded from the source is the zero-degree check, the FixedData setup, and
the collection of the solved columns into source declaration order. -/
def WitnessGenerator.generate {T E : Type} (wg : WitnessGenerator T E)
    (solved : List (String × List T)) : Except WitgenError (List (String × List T)) :=
  if wg.degree = 0 then
    Except.error WitgenError.zeroDegree
  else
    match FixedData.new wg.analyzed wg.degree wg.fixed_col_values wg.external_witness_values with
    | Except.error e => Except.error e
    | Except.ok _fixed =>
      collectColumns (btreeFromIter solved) wg.analyzed.committed_polys_in_source_order

/-- Modelled from the spec: the contract of the solving stage whose code is
outside the excerpt. Per the spec, every committed column's name is covered by
exactly the machines plus the main generator, each yielded vector has length
exactly the degree, and for a column with an externally supplied vector the
yielded vector is that vector unchanged. -/
def SolvedContract {T E : Type} (wg : WitnessGenerator T E)
    (solved : List (String × List T)) : Prop :=
  (∀ p ∈ wg.analyzed.committed_polys_in_source_order,
      ∃ v, mapLookup (btreeFromIter solved) p.1.absolute_name = some v ∧
        v.length = wg.degree) ∧
  (∀ n v, mapLookup (btreeFromIter wg.external_witness_values) n = some v →
      n ∈ committedNames wg.analyzed →
      mapLookup (btreeFromIter solved) n = some v)

end Witgen

namespace Witgen

/-- C10: with_external_witness_values replaces the stored external-override
list with the given one and leaves the analyzed system, degree, fixed column
values and query callback unchanged; overrides set by an earlier call are
discarded, not appended to. -/
theorem with_external_witness_values_frame {T E : Type} (wg : WitnessGenerator T E)
    (ext1 ext2 : List (String × List T)) :
    (wg.with_external_witness_values ext1).external_witness_values = ext1 ∧
    (wg.with_external_witness_values ext1).analyzed = wg.analyzed ∧
    (wg.with_external_witness_values ext1).degree = wg.degree ∧
    (wg.with_external_witness_values ext1).fixed_col_values = wg.fixed_col_values ∧
    (wg.with_external_witness_values ext1).query_callback = wg.query_callback ∧
    ((wg.with_external_witness_values ext1).with_external_witness_values ext2).external_witness_values
      = ext2 :=
  ⟨rfl, rfl, rfl, rfl, rfl, rfl⟩

/-- C9: WitnessColumn::new attaches a query exactly when the value definition
is a Query expression; the query's polynomial reference carries the column's
id as a committed poly, the column's name, next = false and index = none;
otherwise the query is none. The name and external values are stored as given. -/
theorem witnessColumn_new_query_spec {T E : Type} (id : Nat) (name : String)
    (value : Option (FunctionValueDefinition E)) (ext : Option (List T)) :
    (∀ e, value = some (FunctionValueDefinition.Query e) →
      (WitnessColumn.new id name value ext : WitnessColumn T E).query =
        some { expr := e,
               poly := { poly_id := some { id := id, ptype := PolynomialType.Committed },
                         name := name, next := false, index := none } }) ∧
    ((∀ e, value ≠ some (FunctionValueDefinition.Query e)) →
      (WitnessColumn.new id name value ext : WitnessColumn T E).query = none) ∧
    (WitnessColumn.new id name value ext : WitnessColumn T E).name = name ∧
    (WitnessColumn.new id name value ext : WitnessColumn T E).external_values = ext := by
  refine ⟨?_, ?_, rfl, rfl⟩
  · intro e he
    subst he
    rfl
  · intro hne
    match value with
    | none => rfl
    | some (FunctionValueDefinition.Mapping e) => rfl
    | some (FunctionValueDefinition.Array es) => rfl
    | some (FunctionValueDefinition.Expression e) => rfl
    | some (FunctionValueDefinition.Query e) => exact absurd rfl (hne e)

/-- Witness for C9 at a concrete input: a Query value definition yields the
expected query, a Mapping definition yields none. -/
theorem witnessColumn_new_query_spec_witness :
    (WitnessColumn.new 3 "w" (some (FunctionValueDefinition.Query 7)) (none : Option (List Int))).query
      = some { expr := 7,
               poly := { poly_id := some { id := 3, ptype := PolynomialType.Committed },
                         name := "w", next := false, index := none } } ∧
    (WitnessColumn.new 3 "w" (some (FunctionValueDefinition.Mapping 7)) (none : Option (List Int))).query
      = none :=
  ⟨(witnessColumn_new_query_spec 3 "w" (some (FunctionValueDefinition.Query 7)) none).1 7 rfl,
   (witnessColumn_new_query_spec 3 "w" (some (FunctionValueDefinition.Mapping 7)) none).2.1
     (fun e h => by exact FunctionValueDefinition.noConfusion (Option.some.inj h))⟩

/-- C2: if the degree is zero, generate fails with the zero-degree error, with
the same result whatever the solving stage would have delivered; in particular
the error does not depend on FixedData construction or any later stage. -/
theorem generate_zero_degree {T E : Type} (wg : WitnessGenerator T E)
    (h : wg.degree = 0) (solved : List (String × List T)) :
    wg.generate solved = Except.error WitgenError.zeroDegree := by
  unfold WitnessGenerator.generate
  simp [h]

/-- Witness for C2 at a concrete zero-degree configuration. -/
theorem generate_zero_degree_witness :
    (WitnessGenerator.new
      (Analyzed.mk ([({ absolute_name := "w", id := 0, length := none },
        (none : Option (FunctionValueDefinition Unit)))]))
      0 ([] : List (String × List Int)) (fun _ => none)).generate [("w", [1, 2])]
      = Except.error WitgenError.zeroDegree :=
  generate_zero_degree _ rfl _

end Witgen

namespace Witgen

/-- Removal leaves lookups of other keys unchanged and empties the removed key. -/
theorem mapLookup_mapRemove {α : Type} (m : List (String × α)) (k n : String) :
    mapLookup (mapRemove m k) n = if n = k then none else mapLookup m n := by
  induction m with
  | nil => simp [mapRemove, mapLookup]
  | cons p rest ih =>
    by_cases hpk : p.1 = k <;> by_cases hnk : n = k <;>
      simp_all [mapRemove, mapLookup, eq_comm]

/-- Insertion with replacement: lookup of the inserted key yields the new
value, other keys are unchanged. -/
theorem mapLookup_btreeInsert {α : Type} (m : List (String × α)) (k : String) (v : α)
    (n : String) :
    mapLookup (btreeInsert m k v) n = if n = k then some v else mapLookup m n := by
  induction m with
  | nil => simp [btreeInsert, mapLookup, eq_comm]
  | cons p rest ih =>
    by_cases hpk : p.1 = k <;> by_cases hnk : n = k <;>
      simp_all [btreeInsert, mapLookup, eq_comm]

/-- A successful lookup means the key occurs among the keys of the list. -/
theorem mapLookup_mem_keys {α : Type} :
    ∀ (m : List (String × α)) (n : String) (w : α),
      mapLookup m n = some w → n ∈ m.map Prod.fst := by
  intro m
  induction m with
  | nil => intro n w h; simp [mapLookup] at h
  | cons p rest ih =>
    intro n w h
    simp only [mapLookup] at h
    by_cases hpn : p.1 = n
    · simp [hpn]
    · rw [if_neg hpn] at h
      simp [ih n w h]

/-- Keys present in the input list stay present through BTreeMap::from_iter. -/
theorem btreeFromIter_key_mem {α : Type} (l : List (String × α)) (n : String) (v : α)
    (hmem : (n, v) ∈ l) : ∃ w, mapLookup (btreeFromIter l) n = some w := by
  suffices h : ∀ (l : List (String × α)) (m : List (String × α)),
      ((∃ w, mapLookup m n = some w) ∨ ∃ u, (n, u) ∈ l) →
      ∃ w, mapLookup (l.foldl (fun m p => btreeInsert m p.1 p.2) m) n = some w by
    exact h l [] (Or.inr ⟨v, hmem⟩)
  intro l2
  induction l2 with
  | nil =>
    intro m h
    rcases h with h | ⟨u, hu⟩
    · simpa using h
    · simp at hu
  | cons p rest ih =>
    intro m h
    simp only [List.foldl_cons]
    apply ih
    by_cases hnp : n = p.1
    · exact Or.inl ⟨p.2, by rw [mapLookup_btreeInsert, if_pos hnp]⟩
    · rcases h with ⟨w, hw⟩ | ⟨u, hu⟩
      · exact Or.inl ⟨w, by rw [mapLookup_btreeInsert, if_neg hnp]; exact hw⟩
      · rcases List.mem_cons.mp hu with hu | hu
        · exact absurd (congrArg Prod.fst hu) hnp
        · exact Or.inr ⟨u, hu⟩

/-- Positional getD with a default agrees with get at in-range indices. -/
theorem getD_eq_get {α : Type} (d : α) :
    ∀ (l : List α) (i : Nat) (h : i < l.length), l.getD i d = l.get ⟨i, h⟩ := by
  intro l
  induction l with
  | nil => intro i h; simp at h
  | cons a l ih =>
    intro i h
    cases i with
    | zero => rfl
    | succ k => exact ih k (Nat.lt_of_succ_lt_succ h)

end Witgen

namespace Witgen

/-- The per-declaration loop consumes exactly the overrides matching a
declared name: looked up in the leftover map, a declared name yields none and
any other key is untouched. -/
theorem mkWitnessColumns_leftover_lookup {T E : Type} (degree : Nat) :
    ∀ (polys : List (Symbol × Option (FunctionValueDefinition E))) (i : Nat)
      (ext : List (String × List T)) (cols : List (WitnessColumn T E))
      (leftover : List (String × List T)),
      mkWitnessColumns degree polys i ext = Except.ok (cols, leftover) →
      ∀ n, mapLookup leftover n =
        if n ∈ polys.map (fun p => p.1.absolute_name) then none else mapLookup ext n := by
  intro polys
  induction polys with
  | nil =>
    intro i ext cols leftover h n
    simp only [mkWitnessColumns, Except.ok.injEq, Prod.mk.injEq] at h
    obtain ⟨-, rfl⟩ := h
    simp
  | cons pv rest ih =>
    intro i ext cols leftover h n
    obtain ⟨poly, value⟩ := pv
    simp only [mkWitnessColumns] at h
    split at h
    · exact Except.noConfusion h
    · split at h
      · exact Except.noConfusion h
      · split at h
        · exact Except.noConfusion h
        · split at h
          · exact Except.noConfusion h
          · rename_i cols2 leftover2 heq
            cases h
            rw [ih _ _ _ _ heq n, mapLookup_mapRemove]
            by_cases hn1 : n ∈ rest.map (fun p => p.1.absolute_name) <;>
              by_cases hn2 : n = poly.absolute_name <;>
              simp [hn1, hn2]

/-- Any override whose name matches a processed declaration was length-checked:
on success its vector has length exactly the degree. -/
theorem mkWitnessColumns_matched_length {T E : Type} (degree : Nat) :
    ∀ (polys : List (Symbol × Option (FunctionValueDefinition E))) (i : Nat)
      (ext : List (String × List T)) (res : List (WitnessColumn T E) × List (String × List T)),
      mkWitnessColumns degree polys i ext = Except.ok res →
      ∀ n v, n ∈ polys.map (fun p => p.1.absolute_name) → mapLookup ext n = some v →
        v.length = degree := by
  intro polys
  induction polys with
  | nil => intro i ext res h n v hn; simp at hn
  | cons pv rest ih =>
    intro i ext res h n v hn hv
    obtain ⟨poly, value⟩ := pv
    simp only [mkWitnessColumns] at h
    split at h
    · exact Except.noConfusion h
    · split at h
      · exact Except.noConfusion h
      · split at h
        · exact Except.noConfusion h
        · rename_i hbad
          split at h
          · exact Except.noConfusion h
          · rename_i cols2 leftover2 heq
            by_cases hn2 : n = poly.absolute_name
            · subst hn2
              rw [hv] at hbad
              simp [extLengthBad] at hbad
              exact hbad
            · have hn3 : n ∈ rest.map (fun p => p.1.absolute_name) := by
                simpa [hn2] using hn
              have hv2 : mapLookup (mapRemove ext poly.absolute_name) n = some v := by
                rw [mapLookup_mapRemove, if_neg hn2]
                exact hv
              exact ih _ _ _ heq n v hn3 hv2

/-- Every witness column built by the loop stores, when present, an external
vector of length exactly the degree. -/
theorem mkWitnessColumns_cols_length {T E : Type} (degree : Nat) :
    ∀ (polys : List (Symbol × Option (FunctionValueDefinition E))) (i : Nat)
      (ext : List (String × List T)) (cols : List (WitnessColumn T E))
      (leftover : List (String × List T)),
      mkWitnessColumns degree polys i ext = Except.ok (cols, leftover) →
      ∀ wc ∈ cols, ∀ w, wc.external_values = some w → w.length = degree := by
  intro polys
  induction polys with
  | nil =>
    intro i ext cols leftover h wc hwc w hw
    simp only [mkWitnessColumns, Except.ok.injEq, Prod.mk.injEq] at h
    obtain ⟨rfl, -⟩ := h
    simp at hwc
  | cons pv rest ih =>
    intro i ext cols leftover h wc hwc w hw
    obtain ⟨poly, value⟩ := pv
    simp only [mkWitnessColumns] at h
    split at h
    · exact Except.noConfusion h
    · split at h
      · exact Except.noConfusion h
      · split at h
        · exact Except.noConfusion h
        · rename_i hbad
          split at h
          · exact Except.noConfusion h
          · rename_i cols2 leftover2 heq
            cases h
            rcases List.mem_cons.mp hwc with hwc | hwc
            · subst hwc
              simp only [WitnessColumn.new] at hw
              rw [hw] at hbad
              simp [extLengthBad] at hbad
              exact hbad
            · exact ih _ _ _ _ heq wc hwc w hw

/-- The per-declaration loop never itself reports the leftover-override error. -/
theorem mkWitnessColumns_ne_nonExistent {T E : Type} (degree : Nat) :
    ∀ (polys : List (Symbol × Option (FunctionValueDefinition E))) (i : Nat)
      (ext : List (String × List T)) (ks : List String),
      mkWitnessColumns degree polys i ext ≠
        Except.error (WitgenError.nonExistentColumns ks) := by
  intro polys
  induction polys with
  | nil => intro i ext ks h; exact Except.noConfusion h
  | cons pv rest ih =>
    intro i ext ks h
    obtain ⟨poly, value⟩ := pv
    simp only [mkWitnessColumns] at h
    split at h
    · simp at h
    · split at h
      · simp at h
      · split at h
        · simp at h
        · split at h
          · rename_i e heq
            rw [Except.error.inj h] at heq
            exact ih _ _ _ heq
          · exact Except.noConfusion h

end Witgen

namespace Witgen

/-- A committed declaration carrying an array length makes the loop fail. -/
theorem mkWitnessColumns_array_error {T E : Type} (degree : Nat) :
    ∀ (polys : List (Symbol × Option (FunctionValueDefinition E))) (i : Nat)
      (ext : List (String × List T)),
      (∃ p ∈ polys, p.1.length.isSome = true) →
      ∃ e, mkWitnessColumns degree polys i ext = Except.error e := by
  intro polys
  induction polys with
  | nil => intro i ext h; simp at h
  | cons pv rest ih =>
    intro i ext h
    obtain ⟨poly, value⟩ := pv
    by_cases h1 : poly.length.isSome
    · exact ⟨WitgenError.committedArray poly.absolute_name, by simp [mkWitnessColumns, h1]⟩
    · have h2 : ∃ p ∈ rest, p.1.length.isSome = true := by
        rcases h with ⟨p, hp, hsome⟩
        rcases List.mem_cons.mp hp with hp | hp
        · exact absurd (hp ▸ hsome) (by simpa using h1)
        · exact ⟨p, hp, hsome⟩
      by_cases h3 : poly.id ≠ i
      · exact ⟨WitgenError.idMismatch i poly.id, by simp [mkWitnessColumns, h1, h3]⟩
      · by_cases h4 : extLengthBad degree (mapLookup ext poly.absolute_name) = true
        · exact ⟨WitgenError.externalLengthMismatch poly.absolute_name,
            by simp [mkWitnessColumns, h1, h3, h4]⟩
        · obtain ⟨e, he⟩ := ih (i + 1) (mapRemove ext poly.absolute_name) h2
          exact ⟨e, by simp [mkWitnessColumns, h1, h3, h4, he]⟩

/-- A declared id differing from the declaration's position makes the loop fail. -/
theorem mkWitnessColumns_id_error {T E : Type} (degree : Nat) :
    ∀ (polys : List (Symbol × Option (FunctionValueDefinition E))) (j : Nat)
      (ext : List (String × List T)),
      (∃ (i : Nat) (hi : i < polys.length), (polys.get ⟨i, hi⟩).1.id ≠ j + i) →
      ∃ e, mkWitnessColumns degree polys j ext = Except.error e := by
  intro polys
  induction polys with
  | nil => intro j ext h; obtain ⟨i, hi, -⟩ := h; simp at hi
  | cons pv rest ih =>
    intro j ext h
    obtain ⟨poly, value⟩ := pv
    by_cases h1 : poly.length.isSome
    · exact ⟨WitgenError.committedArray poly.absolute_name, by simp [mkWitnessColumns, h1]⟩
    · by_cases h3 : poly.id ≠ j
      · exact ⟨WitgenError.idMismatch j poly.id, by simp [mkWitnessColumns, h1, h3]⟩
      · have h2 : ∃ (i : Nat) (hi : i < rest.length), (rest.get ⟨i, hi⟩).1.id ≠ (j + 1) + i := by
          rcases h with ⟨i, hi, hne⟩
          cases i with
          | zero => exact absurd (not_not.mp h3) (by simpa using hne)
          | succ k =>
            refine ⟨k, Nat.lt_of_succ_lt_succ (by simpa using hi), ?_⟩
            have : ((poly, value) :: rest).get ⟨k + 1, hi⟩ = rest.get ⟨k, _⟩ := rfl
            rw [this] at hne
            omega
        by_cases h4 : extLengthBad degree (mapLookup ext poly.absolute_name) = true
        · exact ⟨WitgenError.externalLengthMismatch poly.absolute_name,
            by simp [mkWitnessColumns, h1, h3, h4]⟩
        · obtain ⟨e, he⟩ := ih (j + 1) (mapRemove ext poly.absolute_name) h2
          exact ⟨e, by simp [mkWitnessColumns, h1, h3, h4, he]⟩

end Witgen

namespace Witgen

/-- On success, FixedData::new returns the given degree, witness columns whose
stored external vectors all have length exactly the degree, and witness
columns produced by the per-declaration loop. -/
theorem fixedData_new_ok_facts {T E : Type} (analyzed : Analyzed E) (degree : Nat)
    (fcv ext : List (String × List T)) (fd : FixedData T E)
    (h : FixedData.new analyzed degree fcv ext = Except.ok fd) :
    fd.degree = degree ∧
    (∀ wc ∈ fd.witness_cols, ∀ w, wc.external_values = some w → w.length = degree) ∧
    ∃ leftover, mkWitnessColumns degree analyzed.committed_polys_in_source_order 0
      (btreeFromIter ext) = Except.ok (fd.witness_cols, leftover) := by
  simp only [FixedData.new] at h
  split at h
  · exact Except.noConfusion h
  · rename_i witness_cols leftover heq
    split at h
    · cases h
      exact ⟨rfl, mkWitnessColumns_cols_length degree _ _ _ _ _ heq, leftover, heq⟩
    · exact Except.noConfusion h

/-- C3 (amended): for every override that is effective after the overrides are
keyed by name (BTreeMap::from_iter keeps the last pair per name), a vector
length different from the degree makes FixedData::new, and hence generate,
fail fatally at setup, before any row-by-row generation, whatever the solving
stage would have delivered; and every FixedData produced by new stores only
external vectors of length exactly the degree. -/
theorem fixedData_new_external_length {T E : Type} (analyzed : Analyzed E) (degree : Nat)
    (fcv ext : List (String × List T)) :
    (∀ n v, mapLookup (btreeFromIter ext) n = some v → v.length ≠ degree →
      (∃ e, FixedData.new analyzed degree fcv ext = Except.error e) ∧
      (∀ (q : String → Option T) solved, ∃ e2,
        (WitnessGenerator.mk analyzed degree fcv q ext).generate solved
          = Except.error e2)) ∧
    (∀ fd, FixedData.new analyzed degree fcv ext = Except.ok fd →
      ∀ wc ∈ fd.witness_cols, ∀ w, wc.external_values = some w → w.length = degree) := by
  constructor
  · intro n v hlook hlen
    have hnew : ∃ e, FixedData.new analyzed degree fcv ext = Except.error e := by
      rcases hmk : mkWitnessColumns degree analyzed.committed_polys_in_source_order 0
          (btreeFromIter ext) with e | pr
      · exact ⟨e, by simp [FixedData.new, hmk]⟩
      · obtain ⟨cols, leftover⟩ := pr
        by_cases hn : n ∈ analyzed.committed_polys_in_source_order.map
            (fun p => p.1.absolute_name)
        · exact absurd (mkWitnessColumns_matched_length degree _ _ _ _ hmk n v hn hlook) hlen
        · have hlo : mapLookup leftover n = some v := by
            rw [mkWitnessColumns_leftover_lookup degree _ _ _ _ _ hmk n, if_neg hn]
            exact hlook
          have hne : leftover.isEmpty = false := by
            cases leftover with
            | nil => simp [mapLookup] at hlo
            | cons a l => rfl
          exact ⟨WitgenError.nonExistentColumns (leftover.map Prod.fst),
            by simp [FixedData.new, hmk, hne]⟩
    refine ⟨hnew, ?_⟩
    intro q solved
    obtain ⟨e, he⟩ := hnew
    by_cases hd : degree = 0
    · exact ⟨WitgenError.zeroDegree, by simp [WitnessGenerator.generate, hd]⟩
    · exact ⟨e, by simp [WitnessGenerator.generate, hd, he]⟩
  · intro fd h
    exact (fixedData_new_ok_facts analyzed degree fcv ext fd h).2.1

/-- C3 counterexample: with degree 2 and override list [("w", [5]), ("w", [7, 8])],
the pair ("w", [5]) is an externally supplied override whose length 1 differs
from the degree 2, yet FixedData::new succeeds: BTreeMap::from_iter keeps only
the last pair per name, so the discarded pair is never length-checked. -/
theorem fixedData_new_external_length_counterexample :
    ("w", [(5 : Int)]) ∈ [("w", [(5 : Int)]), ("w", [7, 8])] ∧
    ([(5 : Int)]).length ≠ 2 ∧
    FixedData.new (Analyzed.mk [({ absolute_name := "w", id := 0, length := none },
        (none : Option (FunctionValueDefinition Unit)))]) 2 []
        [("w", [(5 : Int)]), ("w", [7, 8])]
      = Except.ok
        { degree := 2, fixed_cols := [],
          witness_cols := [{ name := "w", query := none, external_values := some [7, 8] }] } := by
  refine ⟨by simp, by simp, ?_⟩
  rfl

/-- Witness for C3 (amended) at a concrete input: a single override of length
1 on a column of degree 2 makes FixedData::new fail. -/
theorem fixedData_new_external_length_witness :
    mapLookup (btreeFromIter [("w", [(5 : Int)])]) "w" = some [(5 : Int)] ∧
    ∃ e, FixedData.new (Analyzed.mk [({ absolute_name := "w", id := 0, length := none },
        (none : Option (FunctionValueDefinition Unit)))]) 2 [] [("w", [(5 : Int)])]
      = Except.error e :=
  ⟨rfl, ((fixedData_new_external_length
    (Analyzed.mk [({ absolute_name := "w", id := 0, length := none },
      (none : Option (FunctionValueDefinition Unit)))]) 2 []
    [("w", [(5 : Int)])]).1 "w" [(5 : Int)] rfl (by decide)).1⟩

/-- C6: an external override naming a column that does not exist makes
FixedData::new fail fatally at setup, and whenever the failure is the
leftover-override error the reported names include the unmatched name. -/
theorem fixedData_new_nonexistent {T E : Type} (analyzed : Analyzed E) (degree : Nat)
    (fcv ext : List (String × List T)) (n : String) (v : List T)
    (hmem : (n, v) ∈ ext) (hnot : n ∉ committedNames analyzed) :
    (∃ e, FixedData.new analyzed degree fcv ext = Except.error e) ∧
    (∀ ks, FixedData.new analyzed degree fcv ext
        = Except.error (WitgenError.nonExistentColumns ks) → n ∈ ks) := by
  obtain ⟨w, hw⟩ := btreeFromIter_key_mem ext n v hmem
  rcases hmk : mkWitnessColumns degree analyzed.committed_polys_in_source_order 0
      (btreeFromIter ext) with e | pr
  · constructor
    · exact ⟨e, by simp [FixedData.new, hmk]⟩
    · intro ks hks
      simp only [FixedData.new, hmk] at hks
      rw [Except.error.inj hks] at hmk
      exact absurd hmk (mkWitnessColumns_ne_nonExistent degree _ _ _ _)
  · obtain ⟨cols, leftover⟩ := pr
    have hnot2 : n ∉ analyzed.committed_polys_in_source_order.map
        (fun p => p.1.absolute_name) := hnot
    have hlo : mapLookup leftover n = some w := by
      rw [mkWitnessColumns_leftover_lookup degree _ _ _ _ _ hmk n, if_neg hnot2]
      exact hw
    have hne : leftover.isEmpty = false := by
      cases leftover with
      | nil => simp [mapLookup] at hlo
      | cons a l => rfl
    have hres : FixedData.new analyzed degree fcv ext
        = Except.error (WitgenError.nonExistentColumns (leftover.map Prod.fst)) := by
      simp [FixedData.new, hmk, hne]
    refine ⟨⟨_, hres⟩, ?_⟩
    intro ks hks
    rw [hres] at hks
    have hkeq : leftover.map Prod.fst = ks :=
      WitgenError.nonExistentColumns.inj (Except.error.inj hks)
    rw [← hkeq]
    exact mapLookup_mem_keys leftover n w hlo

/-- Witness for C6 at a concrete input: an override for "x" against a system
declaring only "w" makes FixedData::new fail and report "x". -/
theorem fixedData_new_nonexistent_witness :
    (("x", [(1 : Int), 2]) ∈ [("x", [(1 : Int), 2])]) ∧
    ∃ e, FixedData.new (Analyzed.mk [({ absolute_name := "w", id := 0, length := none },
        (none : Option (FunctionValueDefinition Unit)))]) 2 [] [("x", [(1 : Int), 2])]
      = Except.error e :=
  ⟨by simp, (fixedData_new_nonexistent _ 2 [] _ "x" [(1 : Int), 2] (by simp) (by decide)).1⟩

/-- C7: a committed column declared as an array makes FixedData::new fail
fatally during setup, and generate fail before any solving, whatever the
solving stage would have delivered. -/
theorem fixedData_new_committed_array {T E : Type} (wg : WitnessGenerator T E)
    (h : ∃ p ∈ wg.analyzed.committed_polys_in_source_order, p.1.length.isSome = true) :
    (∃ e, FixedData.new wg.analyzed wg.degree wg.fixed_col_values wg.external_witness_values
        = Except.error e) ∧
    (∀ solved, ∃ e, wg.generate solved = Except.error e) := by
  obtain ⟨e, he⟩ := mkWitnessColumns_array_error wg.degree
    wg.analyzed.committed_polys_in_source_order 0
    (btreeFromIter wg.external_witness_values) h
  have hnew : FixedData.new wg.analyzed wg.degree wg.fixed_col_values wg.external_witness_values
      = Except.error e := by
    simp [FixedData.new, he]
  refine ⟨⟨e, hnew⟩, ?_⟩
  intro solved
  by_cases hd : wg.degree = 0
  · exact ⟨WitgenError.zeroDegree, by simp [WitnessGenerator.generate, hd]⟩
  · exact ⟨e, by simp [WitnessGenerator.generate, hd, hnew]⟩

/-- Witness for C7 at a concrete input: an array-valued committed column makes
FixedData::new fail. -/
theorem fixedData_new_committed_array_witness :
    (∃ p ∈ [(({ absolute_name := "w", id := 0, length := some 3 } : Symbol),
        (none : Option (FunctionValueDefinition Unit)))], p.1.length.isSome = true) ∧
    ∃ e, FixedData.new (Analyzed.mk [({ absolute_name := "w", id := 0, length := some 3 },
        (none : Option (FunctionValueDefinition Unit)))]) 2 ([] : List (String × List Int)) []
      = Except.error e :=
  ⟨⟨(({ absolute_name := "w", id := 0, length := some 3 } : Symbol),
      (none : Option (FunctionValueDefinition Unit))), by simp, rfl⟩,
   (fixedData_new_committed_array
     (WitnessGenerator.new (Analyzed.mk [({ absolute_name := "w", id := 0, length := some 3 },
       (none : Option (FunctionValueDefinition Unit)))]) 2 ([] : List (String × List Int))
       (fun _ => none))
     ⟨(({ absolute_name := "w", id := 0, length := some 3 } : Symbol),
       (none : Option (FunctionValueDefinition Unit))), by exact List.mem_cons_self _ _, rfl⟩).1⟩

/-- C8: FixedData::new fails on any input whose declared committed ids are not
exactly the zero-based declaration positions 0, 1, 2, and so on. -/
theorem fixedData_new_id_positions {T E : Type} (analyzed : Analyzed E) (degree : Nat)
    (fcv ext : List (String × List T))
    (h : ∃ (i : Nat) (hi : i < analyzed.committed_polys_in_source_order.length),
      (analyzed.committed_polys_in_source_order.get ⟨i, hi⟩).1.id ≠ i) :
    ∃ e, FixedData.new analyzed degree fcv ext = Except.error e := by
  have h2 : ∃ (i : Nat) (hi : i < analyzed.committed_polys_in_source_order.length),
      (analyzed.committed_polys_in_source_order.get ⟨i, hi⟩).1.id ≠ 0 + i := by
    simpa using h
  obtain ⟨e, he⟩ := mkWitnessColumns_id_error degree _ 0 (btreeFromIter ext) h2
  exact ⟨e, by simp [FixedData.new, he]⟩

/-- Witness for C8 at a concrete input: a single column declared with id 1 at
position 0 makes FixedData::new fail. -/
theorem fixedData_new_id_positions_witness :
    (({ absolute_name := "w", id := 1, length := none } : Symbol).id ≠ 0) ∧
    ∃ e, FixedData.new (Analyzed.mk [({ absolute_name := "w", id := 1, length := none },
        (none : Option (FunctionValueDefinition Unit)))]) 2 ([] : List (String × List Int)) []
      = Except.error e :=
  ⟨by decide, fixedData_new_id_positions _ 2 [] [] ⟨0, by decide, by decide⟩⟩

end Witgen

namespace Witgen

/-- C4: for every FixedData built by FixedData::new with a positive degree and
every row index (including indices at or above the degree), external witness
lookup reduces the row index modulo the degree and returns the stored external
vector's element there when one is present, and none otherwise; the stored
vector always has length exactly the degree, so the reduced index is in range
and a next-row reference at the last row wraps to row 0. -/
theorem external_witness_mod {T E : Type} [Inhabited T] (analyzed : Analyzed E) (degree : Nat)
    (fcv ext : List (String × List T)) (fd : FixedData T E)
    (hok : FixedData.new analyzed degree fcv ext = Except.ok fd)
    (hdeg : 0 < degree) (r : Nat) (c : PolyID) (hc : c.id < fd.witness_cols.length) :
    (∀ v, (fd.witness_cols.get ⟨c.id, hc⟩).external_values = some v →
      v.length = fd.degree ∧
      ∃ hr : r % fd.degree < v.length,
        fd.external_witness r c = some (v.get ⟨r % fd.degree, hr⟩)) ∧
    ((fd.witness_cols.get ⟨c.id, hc⟩).external_values = none →
      fd.external_witness r c = none) := by
  obtain ⟨hdeq, hinv, -⟩ := fixedData_new_ok_facts analyzed degree fcv ext fd hok
  have hgetD : fd.witness_cols.getD c.id default = fd.witness_cols.get ⟨c.id, hc⟩ :=
    getD_eq_get default fd.witness_cols c.id hc
  constructor
  · intro v hv
    have hlen : v.length = degree :=
      hinv _ (List.get_mem fd.witness_cols c.id hc) v hv
    have hmod : r % fd.degree < v.length := by
      rw [hlen, hdeq]
      exact Nat.mod_lt r hdeg
    refine ⟨by rw [hlen, hdeq], hmod, ?_⟩
    have hvget := getD_eq_get default v (r % fd.degree) hmod
    show ((fd.witness_cols.getD c.id default).external_values).map
        (fun w => w.getD (r % fd.degree) default) = some (v.get ⟨r % fd.degree, hmod⟩)
    rw [hgetD, hv]
    exact congrArg some hvget
  · intro hv
    show ((fd.witness_cols.getD c.id default).external_values).map
        (fun w => w.getD (r % fd.degree) default) = none
    rw [hgetD, hv]
    rfl

/-- Witness for C4 at a concrete input: degree 2, external vector [10, 11],
row 5 reduces to row 1 and yields 11; a column without external values
yields none. -/
theorem external_witness_mod_witness :
    (FixedData.new (Analyzed.mk [({ absolute_name := "w", id := 0, length := none },
        (none : Option (FunctionValueDefinition Unit)))]) 2 [] [("w", [(10 : Int), 11])]
      = Except.ok
        ({ degree := 2, fixed_cols := [],
           witness_cols := [{ name := "w", query := none, external_values := some [10, 11] }] }
          : FixedData Int Unit)) ∧
    (FixedData.external_witness
      ({ degree := 2, fixed_cols := [],
         witness_cols := [{ name := "w", query := none, external_values := some [10, 11] }] }
        : FixedData Int Unit)
      5 { id := 0, ptype := PolynomialType.Committed } = some 11) := by
  constructor
  · rfl
  · have h := (external_witness_mod
      (Analyzed.mk [({ absolute_name := "w", id := 0, length := none },
        (none : Option (FunctionValueDefinition Unit)))])
      2 [] [("w", [(10 : Int), 11])]
      ({ degree := 2, fixed_cols := [],
         witness_cols := [{ name := "w", query := none, external_values := some [10, 11] }] }
        : FixedData Int Unit)
      rfl (by decide) 5 { id := 0, ptype := PolynomialType.Committed } (by decide)).1
      [(10 : Int), 11] rfl
    obtain ⟨-, hr, heq⟩ := h
    exact heq

end Witgen

namespace Witgen

/-- Lookup facts transport along a map that agrees on the relevant names. -/
theorem forall2_lookup_congr {T E : Type} (m m2 : List (String × List T)) :
    ∀ (polys : List (Symbol × Option (FunctionValueDefinition E)))
      (out : List (String × List T)),
      List.Forall₂ (fun p o => o.1 = p.1.absolute_name ∧
        mapLookup m2 p.1.absolute_name = some o.2) polys out →
      (∀ p ∈ polys, mapLookup m2 p.1.absolute_name = mapLookup m p.1.absolute_name) →
      List.Forall₂ (fun p o => o.1 = p.1.absolute_name ∧
        mapLookup m p.1.absolute_name = some o.2) polys out := by
  intro polys
  induction polys with
  | nil =>
    intro out h hag
    cases h
    exact List.Forall₂.nil
  | cons p rest ih =>
    intro out h hag
    cases h with
    | cons h1 h2 =>
      refine List.Forall₂.cons ⟨h1.1, ?_⟩
        (ih _ h2 (fun q hq => hag q (List.mem_cons_of_mem _ hq)))
      rw [← hag p (List.mem_cons_self _ _)]
      exact h1.2

/-- The collection loop succeeds under distinct declared names with covered,
nonempty columns, and relates each declaration to its output entry: same name,
and the value found in the solved map under that name. -/
theorem collectColumns_forall2 {T E : Type} (d : Nat) (hd : d ≠ 0) :
    ∀ (polys : List (Symbol × Option (FunctionValueDefinition E)))
      (m : List (String × List T)),
      (polys.map (fun p => p.1.absolute_name)).Nodup →
      (∀ p ∈ polys, ∃ v, mapLookup m p.1.absolute_name = some v ∧ v.length = d) →
      ∃ out, collectColumns m polys = Except.ok out ∧
        List.Forall₂ (fun p o => o.1 = p.1.absolute_name ∧
          mapLookup m p.1.absolute_name = some o.2) polys out := by
  intro polys
  induction polys with
  | nil =>
    intro m hnodup hcov
    exact ⟨[], rfl, List.Forall₂.nil⟩
  | cons pv rest ih =>
    intro m hnodup hcov
    obtain ⟨poly, value⟩ := pv
    obtain ⟨v, hv, hvlen⟩ := hcov _ (List.mem_cons_self _ _)
    have hvne : v.isEmpty = false := by
      cases v with
      | nil => rw [List.length_nil] at hvlen; exact absurd hvlen.symm hd
      | cons a l => rfl
    simp only [List.map_cons] at hnodup
    have hnodup1 := List.nodup_cons.mp hnodup
    have hcov2 : ∀ p ∈ rest, ∃ w,
        mapLookup (mapRemove m poly.absolute_name) p.1.absolute_name = some w ∧
        w.length = d := by
      intro p hp
      obtain ⟨w, hw, hwlen⟩ := hcov p (List.mem_cons_of_mem _ hp)
      have hne : p.1.absolute_name ≠ poly.absolute_name := by
        intro heq
        exact hnodup1.1 (heq ▸ List.mem_map_of_mem (fun q => q.1.absolute_name) hp)
      exact ⟨w, by rw [mapLookup_mapRemove, if_neg hne]; exact hw, hwlen⟩
    obtain ⟨out2, hout2, hfa⟩ := ih (mapRemove m poly.absolute_name) hnodup1.2 hcov2
    refine ⟨(poly.absolute_name, v) :: out2, ?_, ?_⟩
    · simp [collectColumns, hv, hvne, hout2]
    · refine List.Forall₂.cons ⟨rfl, hv⟩ ?_
      refine forall2_lookup_congr m (mapRemove m poly.absolute_name) rest out2 hfa ?_
      intro p hp
      have hne : p.1.absolute_name ≠ poly.absolute_name := by
        intro heq
        exact hnodup1.1 (heq ▸ List.mem_map_of_mem (fun q => q.1.absolute_name) hp)
      rw [mapLookup_mapRemove, if_neg hne]

/-- Output names of the collection loop are exactly the declared names in order. -/
theorem forall2_map_fst {T E : Type} (m : List (String × List T)) :
    ∀ (polys : List (Symbol × Option (FunctionValueDefinition E)))
      (out : List (String × List T)),
      List.Forall₂ (fun p o => o.1 = p.1.absolute_name ∧
        mapLookup m p.1.absolute_name = some o.2) polys out →
      out.map Prod.fst = polys.map (fun p => p.1.absolute_name) := by
  intro polys
  induction polys with
  | nil => intro out h; cases h; rfl
  | cons p rest ih =>
    intro out h
    cases h with
    | cons h1 h2 => simp [ih _ h2, h1.1]

/-- Every output value of the collection loop has the covered length. -/
theorem forall2_values_length {T E : Type} (m : List (String × List T)) (d : Nat) :
    ∀ (polys : List (Symbol × Option (FunctionValueDefinition E)))
      (out : List (String × List T)),
      List.Forall₂ (fun p o => o.1 = p.1.absolute_name ∧
        mapLookup m p.1.absolute_name = some o.2) polys out →
      (∀ p ∈ polys, ∃ v, mapLookup m p.1.absolute_name = some v ∧ v.length = d) →
      ∀ o ∈ out, o.2.length = d := by
  intro polys
  induction polys with
  | nil => intro out h hcov o ho; cases h; simp at ho
  | cons p rest ih =>
    intro out h hcov o ho
    cases h with
    | cons h1 h2 =>
      rcases List.mem_cons.mp ho with rfl | ho
      · obtain ⟨v, hv, hvlen⟩ := hcov p (List.mem_cons_self _ _)
        rw [h1.2] at hv
        rw [Option.some.inj hv]
        exact hvlen
      · exact ih _ h2 (fun q hq => hcov q (List.mem_cons_of_mem _ hq)) o ho

/-- Any entry of the collection output carrying a given name holds exactly the
solved map's value under that name. -/
theorem forall2_name_value {T E : Type} (m : List (String × List T)) :
    ∀ (polys : List (Symbol × Option (FunctionValueDefinition E)))
      (out : List (String × List T)),
      List.Forall₂ (fun p o => o.1 = p.1.absolute_name ∧
        mapLookup m p.1.absolute_name = some o.2) polys out →
      ∀ n v, mapLookup m n = some v → ∀ o ∈ out, o.1 = n → o.2 = v := by
  intro polys
  induction polys with
  | nil => intro out h n v hv o ho; cases h; simp at ho
  | cons p rest ih =>
    intro out h n v hv o ho hon
    cases h with
    | cons h1 h2 =>
      rcases List.mem_cons.mp ho with rfl | ho
      · have hlook := h1.2
        rw [← h1.1, hon, hv] at hlook
        exact (Option.some.inj hlook).symm
      · exact ih _ h2 n v hv o ho hon

/-- A declared name appears in the collection output with the solved value. -/
theorem forall2_mem_of_name {T E : Type} (m : List (String × List T)) :
    ∀ (polys : List (Symbol × Option (FunctionValueDefinition E)))
      (out : List (String × List T)),
      List.Forall₂ (fun p o => o.1 = p.1.absolute_name ∧
        mapLookup m p.1.absolute_name = some o.2) polys out →
      ∀ n v, n ∈ polys.map (fun p => p.1.absolute_name) → mapLookup m n = some v →
        (n, v) ∈ out := by
  intro polys
  induction polys with
  | nil => intro out h n v hn; simp at hn
  | cons p rest ih =>
    intro out h n v hn hv
    cases h with
    | cons h1 h2 =>
      rename_i o out2
      rcases List.mem_cons.mp hn with rfl | hn
      · have ho2 : o.2 = v := by
          have hlook := h1.2
          rw [hv] at hlook
          exact (Option.some.inj hlook).symm
        have ho : o = (p.1.absolute_name, v) := Prod.ext h1.1 ho2
        rw [← ho]
        exact List.mem_cons_self _ _
      · exact List.mem_cons_of_mem _ (ih _ h2 n v hn hv)

end Witgen

namespace Witgen

/-- C1: for every valid input (positive degree, distinct declared names,
successful setup) and a solving stage honouring the spec's contract, generate
returns exactly one entry per committed declaration, in source declaration
order, with pairwise distinct names and every value vector of length exactly
the degree. -/
theorem generate_shape {T E : Type} (wg : WitnessGenerator T E)
    (solved : List (String × List T))
    (hdeg : wg.degree ≠ 0)
    (hnodup : (committedNames wg.analyzed).Nodup)
    (hok : exceptIsOk (FixedData.new wg.analyzed wg.degree wg.fixed_col_values
      wg.external_witness_values) = true)
    (hcontract : SolvedContract wg solved) :
    ∃ out, wg.generate solved = Except.ok out ∧
      out.length = wg.analyzed.committed_polys_in_source_order.length ∧
      out.map Prod.fst = committedNames wg.analyzed ∧
      (out.map Prod.fst).Nodup ∧
      (∀ p ∈ out, p.2.length = wg.degree) := by
  obtain ⟨out, hco, hfa⟩ := collectColumns_forall2 wg.degree hdeg
    wg.analyzed.committed_polys_in_source_order (btreeFromIter solved) hnodup hcontract.1
  rcases hnewc : FixedData.new wg.analyzed wg.degree wg.fixed_col_values
      wg.external_witness_values with e | fd
  · rw [hnewc] at hok
    exact absurd hok (by simp [exceptIsOk])
  · have hgen : wg.generate solved =
        collectColumns (btreeFromIter solved) wg.analyzed.committed_polys_in_source_order := by
      simp [WitnessGenerator.generate, hdeg, hnewc]
    have hfst : out.map Prod.fst = committedNames wg.analyzed :=
      forall2_map_fst (btreeFromIter solved) _ _ hfa
    refine ⟨out, by rw [hgen, hco], ?_, hfst, ?_, ?_⟩
    · exact hfa.length_eq.symm
    · rw [hfst]
      exact hnodup
    · exact forall2_values_length (btreeFromIter solved) wg.degree _ _ hfa hcontract.1

/-- C5: for every witness column that has an externally supplied value vector
(the effective one under keying by name), the output of generate contains the
entry pairing that column's name with exactly the supplied vector, and every
output entry under that name carries that vector. -/
theorem generate_external_override {T E : Type} (wg : WitnessGenerator T E)
    (solved : List (String × List T)) (n : String) (v : List T)
    (hdeg : wg.degree ≠ 0)
    (hnodup : (committedNames wg.analyzed).Nodup)
    (hok : exceptIsOk (FixedData.new wg.analyzed wg.degree wg.fixed_col_values
      wg.external_witness_values) = true)
    (hcontract : SolvedContract wg solved)
    (hover : mapLookup (btreeFromIter wg.external_witness_values) n = some v)
    (hdecl : n ∈ committedNames wg.analyzed) :
    ∃ out, wg.generate solved = Except.ok out ∧ (n, v) ∈ out ∧
      ∀ o ∈ out, o.1 = n → o.2 = v := by
  have hsolved : mapLookup (btreeFromIter solved) n = some v :=
    hcontract.2 n v hover hdecl
  obtain ⟨out, hco, hfa⟩ := collectColumns_forall2 wg.degree hdeg
    wg.analyzed.committed_polys_in_source_order (btreeFromIter solved) hnodup hcontract.1
  rcases hnewc : FixedData.new wg.analyzed wg.degree wg.fixed_col_values
      wg.external_witness_values with e | fd
  · rw [hnewc] at hok
    exact absurd hok (by simp [exceptIsOk])
  · have hgen : wg.generate solved =
        collectColumns (btreeFromIter solved) wg.analyzed.committed_polys_in_source_order := by
      simp [WitnessGenerator.generate, hdeg, hnewc]
    refine ⟨out, by rw [hgen, hco], ?_, ?_⟩
    · exact forall2_mem_of_name (btreeFromIter solved) _ _ hfa n v hdecl hsolved
    · exact forall2_name_value (btreeFromIter solved) _ _ hfa n v hsolved

/-- Concrete two-column system used by the closing witnesses: columns a and b
of degree 2, with an external override for b. -/
def analyzedAB : Analyzed Unit :=
  Analyzed.mk [({ absolute_name := "a", id := 0, length := none }, none),
               ({ absolute_name := "b", id := 1, length := none }, none)]

/-- Concrete generator configuration over analyzedAB. -/
def wgAB : WitnessGenerator Int Unit :=
  (WitnessGenerator.new analyzedAB 2 [] (fun _ => none)).with_external_witness_values
    [("b", [10, 11])]

/-- Concrete solved columns for analyzedAB, honouring the override for b. -/
def solvedAB : List (String × List Int) := [("a", [1, 2]), ("b", [10, 11])]

/-- The concrete solved columns satisfy the spec-modelled solving contract. -/
theorem solvedContract_AB : SolvedContract wgAB solvedAB := by
  constructor
  · intro p hp
    rcases List.mem_cons.mp hp with rfl | hp
    · exact ⟨[1, 2], rfl, rfl⟩
    · rcases List.mem_cons.mp hp with rfl | hp
      · exact ⟨[10, 11], rfl, rfl⟩
      · simp at hp
  · intro n v h hn
    have h2 : (if ("b" : String) = n then some [(10 : Int), 11] else none) = some v := h
    by_cases hb : ("b" : String) = n
    · rw [if_pos hb] at h2
      subst hb
      rw [← Option.some.inj h2]
      rfl
    · rw [if_neg hb] at h2
      exact Option.noConfusion h2

/-- Witness for C1 at the concrete two-column input. -/
theorem generate_shape_witness :
    SolvedContract wgAB solvedAB ∧
    ∃ out, wgAB.generate solvedAB = Except.ok out ∧
      out.length = wgAB.analyzed.committed_polys_in_source_order.length ∧
      out.map Prod.fst = committedNames wgAB.analyzed ∧
      (out.map Prod.fst).Nodup ∧
      (∀ p ∈ out, p.2.length = wgAB.degree) :=
  ⟨solvedContract_AB,
    generate_shape wgAB solvedAB (by decide) (by decide) rfl solvedContract_AB⟩

/-- Witness for C5 at the concrete two-column input: the output must carry the
override [10, 11] for b. -/
theorem generate_external_override_witness :
    mapLookup (btreeFromIter wgAB.external_witness_values) "b" = some [(10 : Int), 11] ∧
    ∃ out, wgAB.generate solvedAB = Except.ok out ∧ (("b", [(10 : Int), 11]) ∈ out) ∧
      ∀ o ∈ out, o.1 = "b" → o.2 = [(10 : Int), 11] :=
  ⟨rfl,
    generate_external_override wgAB solvedAB "b" [10, 11] (by decide) (by decide) rfl
      solvedContract_AB rfl (by decide)⟩

end Witgen
